import Mathlib

/-
Verification of the consul_kv_cache sync engine.

This file gives a shallow embedding of the cache in `cache.go` / `consul.go`
(the variant carrying a clock: type `ClockValue`, struct `Value` with fields
Key / Value / Clock, struct `ConsulKVCache` with fields prefix / cache /
clock / exit).  Network effects are made explicit: every operation that
performs a remote call takes the outcome of that call as an argument
(transport failure, decode failure, or the decoded body together with the
X-Consul-Index header).  Go `int64` / `int` values are modelled by `Int`,
byte slices by `List Nat`, and the Go `map[string]*Value` by an association
list with Go map semantics (insert overwrites, delete removes the key).
Go string indexing is byte based; all keys involved here are ASCII, so the
character based `List Char` model coincides with it.
-/

namespace ConsulKV

/-- ClockValue mirrors the Go type `ClockValue int64`. -/
abbrev ClockValue := Int

/-- Bytes models a Go byte slice as a list of byte values. -/
abbrev Bytes := List Nat

/-- Value mirrors the Go struct `Value{Key string; Value []byte; Clock ClockValue}`.
The Go field `Value` is called `Val` here because a Lean structure field may
not repeat the structure name. -/
structure Value where
  Key : String
  Val : Bytes
  Clock : ClockValue
deriving DecidableEq

/-- ConsulValue mirrors the struct `consulValue` of consul.go, the decoded
form of one element of a consul listing response. -/
structure ConsulValue where
  CreateIndex : Int
  ModifyIndex : Int
  Key : String
  Flags : Int
  Val : Bytes
deriving DecidableEq

/-- Table models the Go `map[string]*Value` as an association list. -/
abbrev Table := List (String × Value)

/-- mapLookup models Go map indexing `m[k]` together with its ok flag. -/
def mapLookup (k : String) : Table → Option Value
  | [] => none
  | (k₁, v) :: m => if k₁ = k then some v else mapLookup k m

/-- mapInsert models the Go map assignment `m[k] = v` (overwrite or append). -/
def mapInsert (k : String) (v : Value) : Table → Table
  | [] => [(k, v)]
  | (k₁, v₁) :: m => if k₁ = k then (k, v) :: m else (k₁, v₁) :: mapInsert k v m

/-- mapErase models the Go builtin `delete(m, k)`. -/
def mapErase (k : String) : Table → Table
  | [] => []
  | (k₁, v₁) :: m => if k₁ = k then mapErase k m else (k₁, v₁) :: mapErase k m

/-- CState is the state of a `ConsulKVCache`: the configured root path
(field `prefix` in Go, already carrying its trailing slash), the local
table, the high-water clock and the termination flag. -/
structure CState where
  pfx : String
  cache : Table
  clock : ClockValue
  exit : Bool
deriving DecidableEq

/-- NewConsulKVCache mirrors the Go constructor: it appends "/" to the
root path and starts with an empty table, clock zero and exit unset. -/
def NewConsulKVCache (p : String) : CState :=
  { pfx := p ++ "/", cache := [], clock := 0, exit := false }

/-- Clock mirrors the accessor `Clock()`. -/
def Clock (c : CState) : ClockValue := c.clock

/-- Size mirrors the accessor `Size()`, the Go `len(c.cache)`. -/
def Size (c : CState) : Nat := c.cache.length

/-- Close mirrors `Close()`: it sets the exit flag and does nothing else. -/
def Close (c : CState) : CState := { c with exit := true }

/-- Get mirrors `Get(key)`: a lookup of prefix+key in the local table. -/
def Get (c : CState) (key : String) : Option Value :=
  mapLookup (c.pfx ++ key) c.cache

/-- strStartsL is the character-list form of Go `strings.HasPrefix`. -/
def strStartsL : List Char → List Char → Bool
  | [], _ => true
  | _ :: _, [] => false
  | a :: as, b :: bs => a = b && strStartsL as bs

/-- strStarts models Go `strings.HasPrefix s p` (true when s starts with p). -/
def strStarts (p s : String) : Bool :=
  strStartsL p.toList s.toList

/-- strDrop models the Go byte slice `s[n:]` on ASCII strings. -/
def strDrop (n : Nat) (s : String) : String :=
  (s.toList.drop n).asString

/-- gpStep is the loop body of `GetPrefix`: on a matching key it appends the
entry and raises the running maximum exactly as the Go code
`if v.Clock > max` does; otherwise it leaves the accumulator alone. -/
def gpStep (p : String) (acc : List Value × ClockValue) (kv : String × Value) :
    List Value × ClockValue :=
  if strStarts p kv.1 then
    (acc.1 ++ [kv.2], if acc.2 < kv.2.Clock then kv.2.Clock else acc.2)
  else acc

/-- GetPrefix mirrors `GetPrefix(prefix)`: it resolves the argument against
the configured root and scans the table, collecting matching entries and the
maximum clock seen, starting from the zero value of ClockValue. -/
def GetPrefix (c : CState) (p : String) : List Value × ClockValue :=
  c.cache.foldl (gpStep (c.pfx ++ p)) ([], 0)

/-- CacheError is the error taxonomy of the remote calls. -/
inductive CacheError where
  | transport
  | decode
  | remoteWrite
deriving DecidableEq

/-- bTrue is the byte string "true\n" that consul.go compares the PUT
response body against. -/
def bTrue : Bytes := [116, 114, 117, 101, 10]

/-- PutOutcome describes what happened on the wire during `setConsulKV`:
building the request failed, the round trip failed, or a response body
came back. -/
inductive PutOutcome where
  | reqErr
  | transportErr
  | response (body : Bytes)
deriving DecidableEq

/-- setConsulKV mirrors `setConsulKV` of consul.go.  Request construction
and transport failures are returned.  When a response body arrives, the Go
code builds `errors.New("Consul returned an error setting the value")` for
a body other than "true\n" but drops that error on the floor (the statement
lacks a `return`), so every response, rejected or not, yields nil. -/
def setConsulKV : PutOutcome → Option CacheError
  | .reqErr => some .transport
  | .transportErr => some .transport
  | .response _ => none

/-- Set mirrors `Set(key, val)`: it unconditionally writes the entry into
the local table under prefix+key, with the relative key in the Key field
and the current clock as the version, then issues the remote put and
returns the outcome of that put. -/
def Set (c : CState) (key : String) (val : Bytes) (put : PutOutcome) :
    CState × Option CacheError :=
  let xkey := c.pfx ++ key
  let c₁ := { c with cache := mapInsert xkey { Key := key, Val := val, Clock := c.clock } c.cache }
  (c₁, setConsulKV put)

/-- Delete mirrors `Delete(key)`: it removes prefix+key from the local
table, issues the remote non-recursive delete — whose result `delRes` the
Go code discards — and then puts the sentinel key, returning only the
outcome of that put. -/
def Delete (c : CState) (key : String) (delRes : Option CacheError)
    (put : PutOutcome) : CState × Option CacheError :=
  let k := c.pfx ++ key
  let c₁ := { c with cache := mapErase k c.cache }
  (c₁, setConsulKV put)

/-- RepopResponse is the outcome of the blocking recursive listing that
`Repopulate` issues: transport failure, JSON decode failure, or the decoded
values together with the X-Consul-Index header when it was present and
parsed. -/
inductive RepopResponse where
  | transportErr
  | decodeErr
  | ok (values : List ConsulValue) (headerIdx : Option Int)
deriving DecidableEq

/-- entryOfList is the entry `&Value{val.Key, val.Value, ClockValue(val.ModifyIndex)}`
that Repopulate builds: note the Key field keeps the full listed key. -/
def entryOfList (v : ConsulValue) : Value :=
  { Key := v.Key, Val := v.Val, Clock := v.ModifyIndex }

/-- buildTbl folds a listing into a table by successive map assignments,
as the `for _, val := range values` loops of Repopulate and of the
background merge do; `ent` is the entry each loop builds from a value. -/
def buildTbl (ent : ConsulValue → Value) (vs : List ConsulValue) (acc : Table) : Table :=
  vs.foldl (fun t v => mapInsert v.Key (ent v) t) acc

/-- Repopulate mirrors `Repopulate()`.  Transport and decode failures are
returned with the state untouched; an empty listing returns nil with the
state untouched; otherwise the clock is set from the header — `strconv.Atoi`
with its error dropped, so a missing or malformed header yields 0 — and the
table is rebuilt from scratch from the listing. -/
def Repopulate (c : CState) (r : RepopResponse) : CState × Option CacheError :=
  match r with
  | .transportErr => (c, some .transport)
  | .decodeErr => (c, some .decode)
  | .ok values h =>
    if values.length = 0 then (c, none)
    else
      ({ c with clock := h.getD 0, cache := buildTbl entryOfList values [] }, none)

/-- baseName models the base component of Go `filepath.Split`: the suffix
of the string after its last slash. -/
def baseName (s : String) : String :=
  (s.toList.foldl (fun acc ch => if ch = '/' then [] else acc ++ [ch]) []).asString

/-- syncName is the sentinel key base name. -/
def syncName : String := "__sync"

/-- hasSync is the sentinel scan of the background loop: some changed key
has trailing path segment `__sync`. -/
def hasSync (vs : List ConsulValue) : Bool :=
  vs.any (fun v => decide (baseName v.Key = syncName))

/-- entryStripped is the entry `&Value{val.Key[plen:], val.Value, ClockValue(val.ModifyIndex)}`
that the background merge builds: the Key field has the root path removed. -/
def entryStripped (plen : Nat) (v : ConsulValue) : Value :=
  { Key := strDrop plen v.Key, Val := v.Val, Clock := v.ModifyIndex }

/-- WatchBody is the decoded body of one watch round trip. -/
inductive WatchBody where
  | decodeErr
  | ok (values : List ConsulValue)
deriving DecidableEq

/-- WatchResponse is the outcome of one blocking watch call of the
background loop: transport failure, or a response carrying the
X-Consul-Index header (when present and parsed) and a body. -/
inductive WatchResponse where
  | transportErr
  | got (headerIdx : Option Int) (body : WatchBody)
deriving DecidableEq

/-- LoopState pairs the cache state with the local `idx` variable of
`BackgroundUpdate`. -/
structure LoopState where
  cs : CState
  idx : Int
deriving DecidableEq

/-- bgStep is the effect of one iteration of the `BackgroundUpdate` loop
body on the state, given the outcome `r` of the watch call and, for the
sentinel path, the outcome `rp` of the inner listing that `c.Repopulate()`
would see.  On a transport failure nothing changes; otherwise `idx` is
parsed from the header first (Atoi error dropped).  A decode failure or an
empty change set stops there.  If any changed key has base name `__sync`,
Repopulate runs (its error discarded) and the change set is not applied;
otherwise the clock is set to `idx` and every change is upserted with the
root path stripped from its Key field. -/
def bgStep (ls : LoopState) (r : WatchResponse) (rp : RepopResponse) : LoopState :=
  match r with
  | .transportErr => ls
  | .got h body =>
    let i := h.getD 0
    match body with
    | .decodeErr => { ls with idx := i }
    | .ok values =>
      if values.length = 0 then { ls with idx := i }
      else if hasSync values then
        { cs := (Repopulate ls.cs rp).1, idx := i }
      else
        { cs := { ls.cs with
                    clock := i,
                    cache := buildTbl (entryStripped ls.cs.pfx.length) values ls.cs.cache },
          idx := i }

/-- Iteration describes one pass of the background loop: the value of the
exit flag observed at the check right after the watch call returns, and the
outcomes of the calls of that pass. -/
structure Iteration where
  exitSeen : Bool
  resp : WatchResponse
  repop : RepopResponse
deriving DecidableEq

/-- bgRun runs the `BackgroundUpdate` loop over a finite schedule of
iterations: each pass completes its watch call, then checks the exit flag
and returns at once when it is set, applying nothing of that response;
otherwise it applies the step and continues. -/
def bgRun (ls : LoopState) : List Iteration → LoopState
  | [] => ls
  | it :: rest => if it.exitSeen then ls else bgRun (bgStep ls it.resp it.repop) rest

/-- Op is one mirror operation together with the remote outcomes it
consumed, used to describe reachable states. -/
inductive Op where
  | repop (r : RepopResponse)
  | bg (r : WatchResponse) (rp : RepopResponse)
  | set (key : String) (val : Bytes) (put : PutOutcome)
  | del (key : String) (delRes : Option CacheError) (put : PutOutcome)

/-- applyOp is the cache-state effect of one operation.  The background
step is applied at an arbitrary loop index, on which its cache-state effect
does not depend. -/
def applyOp (c : CState) : Op → CState
  | .repop r => (Repopulate c r).1
  | .bg r rp => (bgStep { cs := c, idx := 0 } r rp).cs
  | .set k v put => (Set c k v put).1
  | .del k d put => (Delete c k d put).1

/-- listWF says every modify version in a response body is bounded by the
reported index of that response. -/
def listWF (values : List ConsulValue) (i : Int) : Prop :=
  ∀ v ∈ values, v.ModifyIndex ≤ i

/-- repopWF is the remote index discipline for a listing response applied
in state `c`: when the listing is non-empty, its effective index bounds the
current clock and every modify version it carries.  A correct store
reporting a high-water index satisfies this. -/
def repopWF (c : CState) : RepopResponse → Prop
  | .ok values h => values ≠ [] → (c.clock ≤ h.getD 0 ∧ listWF values (h.getD 0))
  | _ => True

/-- watchWF is the remote index discipline for one watch response and the
inner listing of its sentinel path, applied in state `c`. -/
def watchWF (c : CState) (r : WatchResponse) (rp : RepopResponse) : Prop :=
  match r with
  | .got h (.ok values) =>
      values ≠ [] →
        ((hasSync values = true → repopWF c rp) ∧
         (hasSync values = false → c.clock ≤ h.getD 0 ∧ listWF values (h.getD 0)))
  | _ => True

/-- opWF is the remote index discipline for one operation in state `c`;
local writes need no condition. -/
def opWF (c : CState) : Op → Prop
  | .repop r => repopWF c r
  | .bg r rp => watchWF c r rp
  | .set _ _ _ => True
  | .del _ _ _ => True

/-- ReachWF p c says state c is reachable from the fresh mirror over root
p by operations whose responses obey the remote index discipline. -/
inductive ReachWF (p : String) : CState → Prop where
  | init : ReachWF p (NewConsulKVCache p)
  | step : ∀ c op, ReachWF p c → opWF c op → ReachWF p (applyOp c op)

/-! Lemmas about the table operations. -/

theorem mapLookup_mapInsert_self (k : String) (v : Value) (m : Table) :
    mapLookup k (mapInsert k v m) = some v := by
  induction m with
  | nil => simp [mapInsert, mapLookup]
  | cons kv m ih =>
    by_cases h : kv.1 = k
    · simp [mapInsert, h, mapLookup]
    · simpa [mapInsert, h, mapLookup] using ih

theorem mapLookup_mapInsert_ne {k k₁ : String} (h : k₁ ≠ k) (v : Value) (m : Table) :
    mapLookup k₁ (mapInsert k v m) = mapLookup k₁ m := by
  induction m with
  | nil => simp [mapInsert, mapLookup, Ne.symm h]
  | cons kv m ih =>
    by_cases hk : kv.1 = k
    · subst hk
      simp [mapInsert, mapLookup, h, Ne.symm h]
    · by_cases hk₁ : kv.1 = k₁
      · simp [mapInsert, mapLookup, hk₁, h]
      · simpa [mapInsert, hk, mapLookup, hk₁] using ih

theorem mem_mapInsert {kv : String × Value} {k : String} {v : Value} {m : Table}
    (h : kv ∈ mapInsert k v m) : kv = (k, v) ∨ kv ∈ m := by
  induction m with
  | nil => simpa [mapInsert] using h
  | cons kv₁ m ih =>
    by_cases hk : kv₁.1 = k
    · rcases (by simpa [mapInsert, hk] using h) with h₁ | h₁
      · exact Or.inl h₁
      · exact Or.inr (List.mem_cons_of_mem _ h₁)
    · rcases (by simpa [mapInsert, hk] using h) with h₁ | h₁
      · exact Or.inr (by simp [h₁])
      · rcases ih h₁ with h₂ | h₂
        · exact Or.inl h₂
        · exact Or.inr (List.mem_cons_of_mem _ h₂)

theorem mem_mapErase {kv : String × Value} {k : String} {m : Table}
    (h : kv ∈ mapErase k m) : kv ∈ m := by
  induction m with
  | nil => simpa [mapErase] using h
  | cons kv₁ m ih =>
    by_cases hk : kv₁.1 = k
    · exact List.mem_cons_of_mem _ (ih (by simpa [mapErase, hk] using h))
    · rcases (by simpa [mapErase, hk] using h) with h₁ | h₁
      · simp [h₁]
      · exact List.mem_cons_of_mem _ (ih h₁)

theorem mapLookup_mapErase_self (k : String) (m : Table) :
    mapLookup k (mapErase k m) = none := by
  induction m with
  | nil => simp [mapErase, mapLookup]
  | cons kv m ih =>
    by_cases hk : kv.1 = k
    · simpa [mapErase, hk] using ih
    · simpa [mapErase, hk, mapLookup] using ih

theorem mapLookup_mapErase_ne {k k₁ : String} (h : k₁ ≠ k) (m : Table) :
    mapLookup k₁ (mapErase k m) = mapLookup k₁ m := by
  induction m with
  | nil => simp [mapErase]
  | cons kv m ih =>
    by_cases hk : kv.1 = k
    · subst hk
      simp [mapErase, mapLookup, Ne.symm h, ih]
    · by_cases hk₁ : kv.1 = k₁
      · simp [mapErase, mapLookup, hk₁, h]
      · simpa [mapErase, hk, mapLookup, hk₁] using ih

theorem length_mapInsert_of_lookup_none {k : String} {m : Table}
    (h : mapLookup k m = none) (v : Value) :
    (mapInsert k v m).length = m.length + 1 := by
  induction m with
  | nil => simp [mapInsert]
  | cons kv m ih =>
    by_cases hk : kv.1 = k
    · simp [mapLookup, hk] at h
    · have h₁ : mapLookup k m = none := by simpa [mapLookup, hk] using h
      simp [mapInsert, hk, ih h₁]

theorem mapLookup_eq_none_of_not_mem {k : String} {m : Table}
    (h : k ∉ m.map (fun kv => kv.1)) : mapLookup k m = none := by
  induction m with
  | nil => simp [mapLookup]
  | cons kv m ih =>
    have h₁ : kv.1 ≠ k := by
      intro hc; exact h (by simp [hc])
    have h₂ : k ∉ m.map (fun kv => kv.1) := by
      intro hc; exact h (by simp [hc])
    simpa [mapLookup, h₁] using ih h₂

/-! Lemmas about folding a listing into the table. -/

theorem buildTbl_cons (ent : ConsulValue → Value) (v : ConsulValue)
    (vs : List ConsulValue) (acc : Table) :
    buildTbl ent (v :: vs) acc = buildTbl ent vs (mapInsert v.Key (ent v) acc) := rfl

theorem mem_buildTbl {ent : ConsulValue → Value} {kv : String × Value}
    {vs : List ConsulValue} {acc : Table} (h : kv ∈ buildTbl ent vs acc) :
    (∃ v ∈ vs, kv = (v.Key, ent v)) ∨ kv ∈ acc := by
  induction vs generalizing acc with
  | nil => exact Or.inr (by simpa [buildTbl] using h)
  | cons v vs ih =>
    rw [buildTbl_cons] at h
    rcases ih h with h₁ | h₁
    · rcases h₁ with ⟨w, hw, hkv⟩
      exact Or.inl ⟨w, List.mem_cons_of_mem _ hw, hkv⟩
    · rcases mem_mapInsert h₁ with h₂ | h₂
      · exact Or.inl ⟨v, by simp, h₂⟩
      · exact Or.inr h₂

theorem buildTbl_lookup_of_not_mem {ent : ConsulValue → Value} {k : String}
    {vs : List ConsulValue} (h : k ∉ vs.map ConsulValue.Key) (acc : Table) :
    mapLookup k (buildTbl ent vs acc) = mapLookup k acc := by
  induction vs generalizing acc with
  | nil => simp [buildTbl]
  | cons v vs ih =>
    have h₁ : k ∉ vs.map ConsulValue.Key := by
      intro hc; exact h (by simp [hc])
    have h₂ : k ≠ v.Key := by
      intro hc; exact h (by simp [hc])
    rw [buildTbl_cons, ih h₁, mapLookup_mapInsert_ne h₂]

theorem buildTbl_lookup_last {ent : ConsulValue → Value} :
    ∀ {vs : List ConsulValue} {v : ConsulValue}, v ∈ vs → ∀ acc : Table,
      ∃ w, w ∈ vs ∧ w.Key = v.Key ∧
        mapLookup v.Key (buildTbl ent vs acc) = some (ent w)
  | [], v, hv, _ => absurd hv (List.not_mem_nil v)
  | u :: vs, v, hv, acc => by
    rw [buildTbl_cons]
    by_cases hmem : v.Key ∈ vs.map ConsulValue.Key
    · rcases List.mem_map.mp hmem with ⟨w₀, hw₀, hkey⟩
      rcases buildTbl_lookup_last hw₀ (mapInsert u.Key (ent u) acc) with
        ⟨w, hw, hwk, hlook⟩
      refine ⟨w, List.mem_cons_of_mem _ hw, by rw [hwk, hkey], ?_⟩
      rw [← hkey]
      exact hlook
    · rcases (by simpa using hv : v = u ∨ v ∈ vs) with h₁ | h₁
      · subst h₁
        refine ⟨v, by simp, rfl, ?_⟩
        rw [buildTbl_lookup_of_not_mem hmem, mapLookup_mapInsert_self]
      · exact absurd (List.mem_map.mpr ⟨v, h₁, rfl⟩) hmem

theorem buildTbl_lookup_nodup {ent : ConsulValue → Value} {v : ConsulValue}
    {vs : List ConsulValue} (hnd : (vs.map ConsulValue.Key).Nodup)
    (hv : v ∈ vs) (acc : Table) :
    mapLookup v.Key (buildTbl ent vs acc) = some (ent v) := by
  induction vs generalizing v acc with
  | nil => cases hv
  | cons u vs ih =>
    rw [List.map_cons, List.nodup_cons] at hnd
    rw [buildTbl_cons]
    rcases (by simpa using hv : v = u ∨ v ∈ vs) with h₁ | h₁
    · subst h₁
      rw [buildTbl_lookup_of_not_mem hnd.1, mapLookup_mapInsert_self]
    · exact ih hnd.2 h₁ _

theorem buildTbl_length {ent : ConsulValue → Value} {vs : List ConsulValue}
    (hnd : (vs.map ConsulValue.Key).Nodup) {acc : Table}
    (hacc : ∀ v ∈ vs, mapLookup v.Key acc = none) :
    (buildTbl ent vs acc).length = acc.length + vs.length := by
  induction vs generalizing acc with
  | nil => simp [buildTbl]
  | cons u vs ih =>
    rw [List.map_cons, List.nodup_cons] at hnd
    rw [buildTbl_cons]
    have hacc₁ : ∀ v ∈ vs, mapLookup v.Key (mapInsert u.Key (ent u) acc) = none := by
      intro v hv
      have hne : v.Key ≠ u.Key := by
        intro hc
        exact hnd.1 (by rw [← hc]; exact List.mem_map.mpr ⟨v, hv, rfl⟩)
      rw [mapLookup_mapInsert_ne hne]
      exact hacc v (List.mem_cons_of_mem _ hv)
    rw [ih hnd.2 hacc₁,
        length_mapInsert_of_lookup_none (hacc u (by simp)) (ent u)]
    simp only [List.length_cons]
    omega

/-! Lemmas about the GetPrefix scan. -/

/-- imax is the running-maximum step `if max < x then x else max` of the
GetPrefix loop. -/
def imax (m x : ClockValue) : ClockValue := if m < x then x else m

theorem gpStep_eq (p : String) (acc : List Value × ClockValue) (kv : String × Value) :
    gpStep p acc kv =
      if strStarts p kv.1 then (acc.1 ++ [kv.2], imax acc.2 kv.2.Clock) else acc := rfl

theorem gp_foldl (p : String) (l : Table) (acc : List Value × ClockValue) :
    l.foldl (gpStep p) acc =
      (acc.1 ++ (l.filter (fun kv => strStarts p kv.1)).map (fun kv => kv.2),
       ((l.filter (fun kv => strStarts p kv.1)).map (fun kv => kv.2.Clock)).foldl
         imax acc.2) := by
  induction l generalizing acc with
  | nil => simp
  | cons kv l ih =>
    by_cases hm : strStarts p kv.1
    · simp [List.foldl_cons, gpStep_eq, hm, ih]
    · simp [List.foldl_cons, gpStep_eq, hm, ih]

theorem le_foldl_imax (a : ClockValue) (l : List ClockValue) :
    a ≤ l.foldl imax a := by
  induction l generalizing a with
  | nil => simp
  | cons x l ih =>
    refine le_trans ?_ (ih (imax a x))
    unfold imax
    split
    · rename_i h
      exact le_of_lt h
    · exact le_refl a

theorem foldl_imax_le {x : ClockValue} {l : List ClockValue} (hx : x ∈ l)
    (a : ClockValue) : x ≤ l.foldl imax a := by
  induction l generalizing a with
  | nil => cases hx
  | cons y l ih =>
    rcases (by simpa using hx : x = y ∨ x ∈ l) with h₁ | h₁
    · subst h₁
      refine le_trans ?_ (le_foldl_imax (imax a x) l)
      unfold imax
      split
      · exact le_refl x
      · rename_i h
        exact le_of_not_lt h
    · exact ih h₁ (imax a y)

theorem foldl_imax_mem (a : ClockValue) (l : List ClockValue) :
    l.foldl imax a = a ∨ l.foldl imax a ∈ l := by
  induction l generalizing a with
  | nil => simp
  | cons x l ih =>
    rcases ih (imax a x) with h₁ | h₁
    · rw [List.foldl_cons, h₁]
      unfold imax
      split
      · exact Or.inr (by simp)
      · exact Or.inl rfl
    · exact Or.inr (List.mem_cons_of_mem _ h₁)

/-! Concrete data used by witnesses and counterexamples. -/

/-- bsHello is the byte string "hello" used by the repository tests. -/
def bsHello : Bytes := [104, 101, 108, 108, 111]

/-! Claim C7. -/

/-- Claim C7: Repopulate leaves the mirror state (entry table and clock)
entirely unchanged in both non-success cases: on a transport or decode
failure it returns that failure with no modification, and on a successful
empty listing it returns success with no modification. -/
theorem C7_repopulate_noop_cases (c : CState) (h : Option Int) :
    Repopulate c .transportErr = (c, some .transport) ∧
    Repopulate c .decodeErr = (c, some .decode) ∧
    Repopulate c (.ok [] h) = (c, none) :=
  ⟨rfl, rfl, rfl⟩

/-! Claim C8. -/

/-- Claim C8: on a successful non-empty listing, Repopulate replaces the
entire entry table with exactly the listed entries — one per listed key,
holding that key's listed bytes and modify version, no pre-existing entry
surviving — and sets the clock to the listing's reported index; hence the
size equals the number of listed keys and Get returns the listed entry for
each listed key under the root. -/
theorem C8_repopulate_replaces (c : CState) (values : List ConsulValue)
    (h : Option Int) (hne : values ≠ [])
    (hnd : (values.map ConsulValue.Key).Nodup) :
    (Repopulate c (.ok values h)).2 = none ∧
    (Repopulate c (.ok values h)).1.clock = h.getD 0 ∧
    Size (Repopulate c (.ok values h)).1 = values.length ∧
    (∀ v ∈ values,
       mapLookup v.Key (Repopulate c (.ok values h)).1.cache = some (entryOfList v)) ∧
    (∀ k, k ∉ values.map ConsulValue.Key →
       mapLookup k (Repopulate c (.ok values h)).1.cache = none) ∧
    (∀ v ∈ values, ∀ key, v.Key = c.pfx ++ key →
       Get (Repopulate c (.ok values h)).1 key = some (entryOfList v)) := by
  have hlen : ¬values.length = 0 := by
    simpa [List.length_eq_zero] using hne
  refine ⟨?_, ?_, ?_, ?_, ?_, ?_⟩
  · simp [Repopulate, hlen]
  · simp [Repopulate, hlen]
  · show (Repopulate c (.ok values h)).1.cache.length = values.length
    have hred : (Repopulate c (.ok values h)).1.cache = buildTbl entryOfList values [] := by
      simp [Repopulate, hlen]
    have hacc : ∀ v ∈ values, mapLookup v.Key ([] : Table) = none := fun v _ => rfl
    rw [hred, buildTbl_length hnd hacc]
    simp
  · intro v hv
    have hred : (Repopulate c (.ok values h)).1.cache = buildTbl entryOfList values [] := by
      simp [Repopulate, hlen]
    rw [hred]
    exact buildTbl_lookup_nodup hnd hv []
  · intro k hk
    have hred : (Repopulate c (.ok values h)).1.cache = buildTbl entryOfList values [] := by
      simp [Repopulate, hlen]
    rw [hred, buildTbl_lookup_of_not_mem hk]
    rfl
  · intro v hv key hkey
    have hpfx : (Repopulate c (.ok values h)).1.pfx = c.pfx := by
      simp [Repopulate, hlen]
    have hred : (Repopulate c (.ok values h)).1.cache = buildTbl entryOfList values [] := by
      simp [Repopulate, hlen]
    show mapLookup ((Repopulate c (.ok values h)).1.pfx ++ key) _ = _
    rw [hpfx, hred, ← hkey]
    exact buildTbl_lookup_nodup hnd hv []

/-- vW1 is a listed value under root foo. -/
def vW1 : ConsulValue :=
  { CreateIndex := 3, ModifyIndex := 3, Key := "foo/bar", Flags := 0, Val := bsHello }

/-- vW2 is a second listed value under root foo. -/
def vW2 : ConsulValue :=
  { CreateIndex := 5, ModifyIndex := 5, Key := "foo/baz", Flags := 0, Val := bsHello }

/-- Claim C8 witness: a two-key listing yields size two and Get finds the
listed bytes for key bar. -/
theorem C8_witness :
    Size (Repopulate (NewConsulKVCache "foo") (.ok [vW1, vW2] (some 5))).1 = 2 ∧
    Get (Repopulate (NewConsulKVCache "foo") (.ok [vW1, vW2] (some 5))).1 "bar"
      = some (entryOfList vW1) := by
  have h := C8_repopulate_replaces (NewConsulKVCache "foo") [vW1, vW2] (some 5)
    (by decide) (by decide)
  exact ⟨h.2.2.1, h.2.2.2.2.2 vW1 (by decide) "bar" (by decide)⟩

/-! Claim C6. -/

/-- Claim C6: for every non-empty change set returned by a watch call, if
some changed key's trailing path segment is `__sync` the loop performs a
full Repopulate and applies none of the change set; otherwise every entry
of the change set is upserted into the table and keys outside the change
set are untouched. -/
theorem C6_sentinel_vs_merge (ls : LoopState) (h : Option Int)
    (values : List ConsulValue) (rp : RepopResponse) (hne : values ≠ []) :
    (hasSync values = true →
       (bgStep ls (.got h (.ok values)) rp).cs = (Repopulate ls.cs rp).1) ∧
    (hasSync values = false →
       (∀ v ∈ values, ∃ w, w ∈ values ∧ w.Key = v.Key ∧
          mapLookup v.Key (bgStep ls (.got h (.ok values)) rp).cs.cache =
            some (entryStripped ls.cs.pfx.length w)) ∧
       (∀ k, k ∉ values.map ConsulValue.Key →
          mapLookup k (bgStep ls (.got h (.ok values)) rp).cs.cache =
            mapLookup k ls.cs.cache)) := by
  have hlen : ¬values.length = 0 := by
    simpa [List.length_eq_zero] using hne
  constructor
  · intro hs
    simp [bgStep, hlen, hs]
  · intro hs
    have hred : (bgStep ls (.got h (.ok values)) rp).cs.cache =
        buildTbl (entryStripped ls.cs.pfx.length) values ls.cs.cache := by
      simp [bgStep, hlen, hs]
    constructor
    · intro v hv
      rcases @buildTbl_lookup_last (entryStripped ls.cs.pfx.length) values v hv
          ls.cs.cache with ⟨w, hw, hwk, hlook⟩
      refine ⟨w, hw, hwk, ?_⟩
      rw [hred]
      exact hlook
    · intro k hk
      rw [hred]
      exact buildTbl_lookup_of_not_mem hk ls.cs.cache

/-- vSync is a change-set value whose trailing path segment is the
sentinel. -/
def vSync : ConsulValue :=
  { CreateIndex := 9, ModifyIndex := 9, Key := "foo/__sync", Flags := 0, Val := [49] }

/-- Claim C6 witness: a change set containing foo/__sync makes the loop
step equal a full Repopulate of the current state. -/
theorem C6_witness :
    (bgStep { cs := NewConsulKVCache "foo", idx := 0 }
        (.got (some 9) (.ok [vSync])) .transportErr).cs
      = (Repopulate (NewConsulKVCache "foo") .transportErr).1 := by
  have h := C6_sentinel_vs_merge { cs := NewConsulKVCache "foo", idx := 0 }
    (some 9) [vSync] .transportErr (by decide)
  exact h.1 (by decide)

/-! Claim C1. -/

/-- Claim C1 (amended): Set writes the entry into the local table under
prefix+key — with the relative key and the current clock — before issuing
the remote put, and returns the remote put's outcome; the local upsert
persists whether or not the put failed, every other key and the clock are
unchanged. -/
theorem C1_set_writes_through (c : CState) (key : String) (val : Bytes)
    (put : PutOutcome) :
    (Set c key val put).2 = setConsulKV put ∧
    Get (Set c key val put).1 key = some { Key := key, Val := val, Clock := c.clock } ∧
    (∀ k, k ≠ c.pfx ++ key →
       mapLookup k (Set c key val put).1.cache = mapLookup k c.cache) ∧
    (Set c key val put).1.clock = c.clock ∧
    (Set c key val put).1.pfx = c.pfx ∧
    (Set c key val put).1.exit = c.exit := by
  refine ⟨rfl, ?_, ?_, rfl, rfl, rfl⟩
  · show mapLookup (c.pfx ++ key)
        (mapInsert (c.pfx ++ key) { Key := key, Val := val, Clock := c.clock } c.cache)
      = some { Key := key, Val := val, Clock := c.clock }
    exact mapLookup_mapInsert_self _ _ _
  · intro k hk
    exact mapLookup_mapInsert_ne hk _ _

/-- Claim C1 counterexample: when the remote put fails with a transport
error, Set returns that error yet the entry has been inserted into the
local table, so the table is not left unchanged on error. -/
theorem C1_counterexample :
    (Set (NewConsulKVCache "foo") "bar" bsHello .transportErr).2 = some .transport ∧
    mapLookup "foo/bar" (Set (NewConsulKVCache "foo") "bar" bsHello .transportErr).1.cache
      = some { Key := "bar", Val := bsHello, Clock := 0 } := by
  exact ⟨rfl, by decide⟩

/-! Claim C2. -/

/-- Claim C2 (amended): Delete removes prefix+key from the local table
unconditionally, discards the outcome of the remote non-recursive delete
entirely — the call result is never read, so the returned error does not
depend on it — and returns only the sentinel-key put's transport-level
outcome; the clock and every other key are unchanged.  The local removal
persists even when a remote sub-step failed. -/
theorem C2_delete_error_surfacing (c : CState) (key : String)
    (d₁ d₂ : Option CacheError) (put : PutOutcome) :
    (Delete c key d₁ put).2 = setConsulKV put ∧
    Delete c key d₁ put = Delete c key d₂ put ∧
    Get (Delete c key d₁ put).1 key = none ∧
    (∀ k, k ≠ c.pfx ++ key →
       mapLookup k (Delete c key d₁ put).1.cache = mapLookup k c.cache) ∧
    (Delete c key d₁ put).1.clock = c.clock := by
  refine ⟨rfl, rfl, ?_, ?_, rfl⟩
  · exact mapLookup_mapErase_self _ _
  · intro k hk
    exact mapLookup_mapErase_ne hk _

/-- cDel is a state holding one entry foo/baz, used to exercise Delete. -/
def cDel : CState :=
  { pfx := "foo/",
    cache := [("foo/baz", { Key := "baz", Val := bsHello, Clock := 2 })],
    clock := 2, exit := false }

/-- Claim C2 counterexample: the remote delete sub-step fails with a
transport error — the first error among the remote sub-steps — while the
sentinel put succeeds, yet Delete returns nil, and the local removal has
been applied, so the Mirror is not in its pre-call state either. -/
theorem C2_counterexample :
    (Delete cDel "baz" (some .transport) (.response bTrue)).2 = none ∧
    mapLookup "foo/baz" (Delete cDel "baz" (some .transport) (.response bTrue)).1.cache
      = none := by
  exact ⟨rfl, by decide⟩

/-! Claim C3. -/

theorem repop_clock_eq_of_nonempty {values : List ConsulValue} {h : Option Int}
    (hlen : ¬values.length = 0) (c : CState) :
    (Repopulate c (.ok values h)).1.clock = h.getD 0 := by
  simp [Repopulate, hlen]

theorem repop_clock_le {c : CState} {r : RepopResponse} (h : repopWF c r) :
    c.clock ≤ (Repopulate c r).1.clock := by
  cases r with
  | transportErr => exact le_refl _
  | decodeErr => exact le_refl _
  | ok values hidx =>
    by_cases hlen : values.length = 0
    · have heq : (Repopulate c (.ok values hidx)).1 = c := by
        simp [Repopulate, hlen]
      rw [heq]
    · have hne : values ≠ [] := by
        intro hc
        exact hlen (by simp [hc])
      rw [repop_clock_eq_of_nonempty hlen c]
      exact (h hne).1

/-- Claim C3 (amended): the clock never decreases across Repopulate, the
background step, Set or Delete, provided each processed response obeys the
remote index discipline — its reported high-water index is at least the
mirror's current clock (and bounds the versions it carries), which a
correct remote store guarantees.  Without that hypothesis the claim fails,
because both Repopulate and the merge assign the clock from the response
index unconditionally: see the counterexample. -/
theorem C3_clock_monotone (c : CState) (op : Op) (hwf : opWF c op) :
    c.clock ≤ (applyOp c op).clock := by
  cases op with
  | repop r => exact repop_clock_le hwf
  | bg r rp =>
    cases r with
    | transportErr => exact le_refl _
    | got hidx body =>
      cases body with
      | decodeErr => exact le_refl _
      | ok values =>
        by_cases hlen : values.length = 0
        · have heq : (applyOp c (.bg (.got hidx (.ok values)) rp)).clock = c.clock := by
            simp [applyOp, bgStep, hlen]
          rw [heq]
        · have hne : values ≠ [] := by
            intro hc
            exact hlen (by simp [hc])
          by_cases hs : hasSync values
          · have heq : applyOp c (.bg (.got hidx (.ok values)) rp) = (Repopulate c rp).1 := by
              simp [applyOp, bgStep, hlen, hs]
            rw [heq]
            exact repop_clock_le ((hwf hne).1 hs)
          · have heq : (applyOp c (.bg (.got hidx (.ok values)) rp)).clock = hidx.getD 0 := by
              simp [applyOp, bgStep, hlen, hs]
            rw [heq]
            exact ((hwf hne).2 (by simpa using hs)).1
  | set key val put => exact le_refl _
  | del key d put => exact le_refl _

/-- v10 is a listed value with modify version 10 under root foo. -/
def v10 : ConsulValue :=
  { CreateIndex := 10, ModifyIndex := 10, Key := "foo/bar", Flags := 0, Val := bsHello }

/-- sHigh is the state after a Repopulate whose listing reported index 10. -/
def sHigh : CState :=
  (Repopulate (NewConsulKVCache "foo") (.ok [v10] (some 10))).1

/-- Claim C3 counterexample: starting from a state with clock 10, a
Repopulate whose response reports index 3 drops the clock to 3, so the
clock is not monotone over every operation and starting state. -/
theorem C3_counterexample :
    sHigh.clock = 10 ∧ (Repopulate sHigh (.ok [v10] (some 3))).1.clock = 3 := by
  decide

/-- Claim C3 witness: the amended theorem applied to the fresh mirror and
a disciplined listing reporting index 10. -/
theorem C3_witness :
    opWF (NewConsulKVCache "foo") (.repop (.ok [v10] (some 10))) ∧
    (NewConsulKVCache "foo").clock ≤
      (applyOp (NewConsulKVCache "foo") (.repop (.ok [v10] (some 10)))).clock := by
  have hwf : opWF (NewConsulKVCache "foo") (.repop (.ok [v10] (some 10))) := by
    show [v10] ≠ [] →
      ((NewConsulKVCache "foo").clock ≤ (some (10 : Int)).getD 0 ∧
        ∀ v ∈ [v10], v.ModifyIndex ≤ (some (10 : Int)).getD 0)
    intro _
    exact ⟨by decide, by decide⟩
  exact ⟨hwf, C3_clock_monotone _ _ hwf⟩

/-! Claim C4. -/

theorem repop_clock_bound {c : CState} {r : RepopResponse}
    (hc : ∀ kv ∈ c.cache, kv.2.Clock ≤ c.clock) (h : repopWF c r) :
    ∀ kv ∈ (Repopulate c r).1.cache, kv.2.Clock ≤ (Repopulate c r).1.clock := by
  cases r with
  | transportErr => exact hc
  | decodeErr => exact hc
  | ok values hidx =>
    by_cases hlen : values.length = 0
    · have heq : (Repopulate c (.ok values hidx)).1 = c := by
        simp [Repopulate, hlen]
      rw [heq]
      exact hc
    · have hne : values ≠ [] := by
        intro hcon
        exact hlen (by simp [hcon])
      intro kv hkv
      rw [repop_clock_eq_of_nonempty hlen c]
      have hcache : (Repopulate c (.ok values hidx)).1.cache =
          buildTbl entryOfList values [] := by
        simp [Repopulate, hlen]
      rw [hcache] at hkv
      rcases mem_buildTbl hkv with ⟨v, hv, hkveq⟩ | hkv₀
      · rw [hkveq]
        exact (h hne).2 v hv
      · cases hkv₀

/-- Claim C4 (amended): in every state reachable from the fresh mirror by
operations whose responses obey the remote index discipline, the clock
bounds the version of every stored entry.  Without the discipline the
claim fails — a single Repopulate whose listing carries a modify version
above its reported index already breaks it: see the counterexample. -/
theorem C4_clock_bounds_entries (p : String) (c : CState) (h : ReachWF p c) :
    ∀ kv ∈ c.cache, kv.2.Clock ≤ c.clock := by
  induction h with
  | init =>
    intro kv hkv
    simp [NewConsulKVCache] at hkv
  | step c op hr hwf ih =>
    cases op with
    | repop r => exact repop_clock_bound ih hwf
    | bg r rp =>
      cases r with
      | transportErr => exact ih
      | got hidx body =>
        cases body with
        | decodeErr => exact ih
        | ok values =>
          by_cases hlen : values.length = 0
          · have heq : applyOp c (.bg (.got hidx (.ok values)) rp) = c := by
              simp [applyOp, bgStep, hlen]
            rw [heq]
            exact ih
          · have hne : values ≠ [] := by
              intro hcon
              exact hlen (by simp [hcon])
            by_cases hs : hasSync values
            · have heq : applyOp c (.bg (.got hidx (.ok values)) rp) =
                  (Repopulate c rp).1 := by
                simp [applyOp, bgStep, hlen, hs]
              rw [heq]
              exact repop_clock_bound ih ((hwf hne).1 hs)
            · have hdisc := (hwf hne).2 (by simpa using hs)
              have hclock : (applyOp c (.bg (.got hidx (.ok values)) rp)).clock =
                  hidx.getD 0 := by
                simp [applyOp, bgStep, hlen, hs]
              have hcache : (applyOp c (.bg (.got hidx (.ok values)) rp)).cache =
                  buildTbl (entryStripped c.pfx.length) values c.cache := by
                simp [applyOp, bgStep, hlen, hs]
              intro kv hkv
              rw [hcache] at hkv
              rw [hclock]
              rcases mem_buildTbl hkv with ⟨v, hv, hkveq⟩ | hkv₀
              · rw [hkveq]
                exact hdisc.2 v hv
              · exact le_trans (ih kv hkv₀) hdisc.1
    | set key val put =>
      intro kv hkv
      rcases mem_mapInsert hkv with hkveq | hkv₀
      · rw [hkveq]
        exact le_refl _
      · exact ih kv hkv₀
    | del key d put =>
      intro kv hkv
      exact ih kv (mem_mapErase hkv)

/-- vBad is a listed value whose modify version 5 exceeds the index 3 the
same response reports. -/
def vBad : ConsulValue :=
  { CreateIndex := 5, ModifyIndex := 5, Key := "foo/bar", Flags := 0, Val := bsHello }

/-- sBad is the state one Repopulate away from the fresh mirror, produced
by that undisciplined response. -/
def sBad : CState :=
  (Repopulate (NewConsulKVCache "foo") (.ok [vBad] (some 3))).1

/-- Claim C4 counterexample: sBad is reachable from the empty initial
state by a single Repopulate, yet it stores an entry whose version 5
exceeds its clock 3. -/
theorem C4_counterexample :
    mapLookup "foo/bar" sBad.cache
      = some { Key := "foo/bar", Val := bsHello, Clock := 5 } ∧
    sBad.clock = 3 := by
  decide

/-- sGood is the state after one disciplined Repopulate of the fresh
mirror. -/
def sGood : CState :=
  applyOp (NewConsulKVCache "foo") (.repop (.ok [v10] (some 10)))

/-- eGood is the entry sGood stores for foo/bar. -/
def eGood : Value := { Key := "foo/bar", Val := bsHello, Clock := 10 }

/-- Claim C4 witness: the amended theorem applied to the state after one
disciplined Repopulate, at its single entry. -/
theorem C4_witness :
    ("foo/bar", eGood) ∈ sGood.cache ∧ eGood.Clock ≤ sGood.clock := by
  have hwf : opWF (NewConsulKVCache "foo") (.repop (.ok [v10] (some 10))) := by
    show [v10] ≠ [] →
      ((NewConsulKVCache "foo").clock ≤ (some (10 : Int)).getD 0 ∧
        ∀ v ∈ [v10], v.ModifyIndex ≤ (some (10 : Int)).getD 0)
    intro _
    exact ⟨by decide, by decide⟩
  have hreach : ReachWF "foo" sGood :=
    ReachWF.step _ _ ReachWF.init hwf
  refine ⟨by decide, ?_⟩
  exact C4_clock_bounds_entries "foo" sGood hreach ("foo/bar", eGood) (by decide)

/-! Claim C5. -/

/-- vAbs is a listed value with the absolute key foo/bar. -/
def vAbs : ConsulValue :=
  { CreateIndex := 7, ModifyIndex := 7, Key := "foo/bar", Flags := 0, Val := bsHello }

/-- Claim C5: evaluation at the failing input.  Repopulate over root foo
stores the entry for listed key foo/bar with Key field "foo/bar" — the
absolute key, the root not stripped — while the background merge step over
the same change set stores Key "bar" and Set stores the relative key too,
contradicting the claim that every population path stores the key relative
to the mirror's root. -/
theorem C5_repopulate_key_not_stripped :
    mapLookup "foo/bar"
        (Repopulate (NewConsulKVCache "foo") (.ok [vAbs] (some 7))).1.cache
      = some { Key := "foo/bar", Val := bsHello, Clock := 7 } ∧
    mapLookup "foo/bar"
        (bgStep { cs := NewConsulKVCache "foo", idx := 0 }
          (.got (some 7) (.ok [vAbs])) .transportErr).cs.cache
      = some { Key := "bar", Val := bsHello, Clock := 7 } ∧
    Get (Set (NewConsulKVCache "foo") "bar" bsHello (.response bTrue)).1 "bar"
      = some { Key := "bar", Val := bsHello, Clock := 0 } := by
  decide

/-! Claim C9. -/

theorem getPrefix_eq (c : CState) (p : String) :
    GetPrefix c p =
      ((c.cache.filter (fun kv => strStarts (c.pfx ++ p) kv.1)).map (fun kv => kv.2),
       ((c.cache.filter (fun kv => strStarts (c.pfx ++ p) kv.1)).map
           (fun kv => kv.2.Clock)).foldl imax 0) := by
  show c.cache.foldl (gpStep (c.pfx ++ p)) ([], 0) = _
  rw [gp_foldl]
  simp

/-- Claim C9 (amended): GetPrefix returns exactly the stored entries whose
absolute key starts with the instance root concatenated with the argument,
and zero as the max version when none match; for the matches the returned
max version is the running maximum seeded with zero, so it equals the true
maximum whenever every matching version is non-negative (always the case
for versions a remote store assigns) but not for negative versions: see
the counterexample. -/
theorem C9_getprefix_exact (c : CState) (p : String)
    (hnn : ∀ kv ∈ c.cache, strStarts (c.pfx ++ p) kv.1 = true → 0 ≤ kv.2.Clock) :
    (∀ v, v ∈ ( GetPrefix c p).1 ↔
       ∃ k, (k, v) ∈ c.cache ∧ strStarts (c.pfx ++ p) k = true) ∧
    (( GetPrefix c p).1 = [] → ( GetPrefix c p).2 = 0) ∧
    (( GetPrefix c p).1 ≠ [] →
       (∃ v ∈ ( GetPrefix c p).1, ( GetPrefix c p).2 = v.Clock) ∧
       ∀ v ∈ ( GetPrefix c p).1, v.Clock ≤ ( GetPrefix c p).2) := by
  have hfst : ( GetPrefix c p).1 =
      (c.cache.filter (fun kv => strStarts (c.pfx ++ p) kv.1)).map (fun kv => kv.2) := by
    rw [getPrefix_eq]
  have hsnd : ( GetPrefix c p).2 =
      ((c.cache.filter (fun kv => strStarts (c.pfx ++ p) kv.1)).map
        (fun kv => kv.2.Clock)).foldl imax 0 := by
    rw [getPrefix_eq]
  refine ⟨?_, ?_, ?_⟩
  · intro v
    rw [hfst]
    constructor
    · intro hv
      rcases List.mem_map.mp hv with ⟨kv, hkv, hkveq⟩
      rcases List.mem_filter.mp hkv with ⟨hmem, hpred⟩
      refine ⟨kv.1, ?_, hpred⟩
      rw [← hkveq]
      simpa using hmem
    · rintro ⟨k, hmem, hpred⟩
      exact List.mem_map.mpr ⟨(k, v), List.mem_filter.mpr ⟨hmem, hpred⟩, rfl⟩
  · intro hempty
    rw [hfst] at hempty
    have hf : c.cache.filter (fun kv => strStarts (c.pfx ++ p) kv.1) = [] := by
      simpa using hempty
    rw [hsnd, hf]
    rfl
  · intro hne
    rw [hfst] at hne
    have hnnf : ∀ x ∈ (c.cache.filter (fun kv => strStarts (c.pfx ++ p) kv.1)).map
        (fun kv => kv.2.Clock), 0 ≤ x := by
      intro x hx
      rcases List.mem_map.mp hx with ⟨kv, hkv, hkveq⟩
      rcases List.mem_filter.mp hkv with ⟨hmem, hpred⟩
      rw [← hkveq]
      exact hnn kv hmem hpred
    constructor
    · rcases foldl_imax_mem 0
          ((c.cache.filter (fun kv => strStarts (c.pfx ++ p) kv.1)).map
            (fun kv => kv.2.Clock)) with hz | hmem
      · rcases List.exists_mem_of_ne_nil _ hne with ⟨v₀, hv₀⟩
        rcases List.mem_map.mp hv₀ with ⟨kv, hkv, hkveq⟩
        refine ⟨v₀, by rw [hfst]; exact hv₀, ?_⟩
        have hmm : kv.2.Clock ∈
            (c.cache.filter (fun kv => strStarts (c.pfx ++ p) kv.1)).map
              (fun kv => kv.2.Clock) := List.mem_map.mpr ⟨kv, hkv, rfl⟩
        have hle : kv.2.Clock ≤ 0 := by
          rw [← hz]
          exact foldl_imax_le hmm 0
        have hge : 0 ≤ kv.2.Clock := hnnf _ hmm
        rw [hsnd, hz, ← hkveq]
        exact (le_antisymm hle hge).symm
      · rcases List.mem_map.mp hmem with ⟨kv, hkv, hkveq⟩
        refine ⟨kv.2, ?_, ?_⟩
        · rw [hfst]
          exact List.mem_map.mpr ⟨kv, hkv, rfl⟩
        · rw [hsnd]
          exact hkveq.symm
    · intro v hv
      rw [hfst] at hv
      rcases List.mem_map.mp hv with ⟨kv, hkv, hkveq⟩
      rw [hsnd, ← hkveq]
      exact foldl_imax_le (List.mem_map.mpr ⟨kv, hkv, rfl⟩) 0

/-- cGP is a state with two entries under sub-path c and one outside it. -/
def cGP : CState :=
  { pfx := "foo/",
    cache := [("foo/c/bar", { Key := "c/bar", Val := bsHello, Clock := 4 }),
              ("foo/c/baz", { Key := "c/baz", Val := bsHello, Clock := 3 }),
              ("foo/d", { Key := "d", Val := bsHello, Clock := 9 })],
    clock := 9, exit := false }

/-- eGP is the highest-version entry under sub-path c of cGP. -/
def eGP : Value := { Key := "c/bar", Val := bsHello, Clock := 4 }

/-- Claim C9 witness: the amended theorem applied to cGP at sub-path c,
specialized to its highest matching entry. -/
theorem C9_witness : eGP.Clock ≤ ( GetPrefix cGP "c").2 := by
  have h := C9_getprefix_exact cGP "c" (by decide)
  exact (h.2.2 (by decide)).2 eGP (by decide)

/-- vNeg is a listed value whose decoded modify version is negative, as a
malformed response body can produce. -/
def vNeg : ConsulValue :=
  { CreateIndex := 0, ModifyIndex := -1, Key := "foo/a", Flags := 0, Val := [] }

/-- sNeg is the state one Repopulate of the fresh mirror away, holding a
single entry of version -1. -/
def sNeg : CState :=
  (Repopulate (NewConsulKVCache "foo") (.ok [vNeg] (some 0))).1

/-- Claim C9 counterexample: in sNeg the single stored entry matches the
empty sub-path and has version -1, yet GetPrefix reports max version 0,
which is not the maximum version among the matching entries. -/
theorem C9_counterexample :
    ( GetPrefix sNeg "").1 = [{ Key := "foo/a", Val := [], Clock := -1 }] ∧
    ( GetPrefix sNeg "").2 = 0 := by
  decide

/-! Claim C10. -/

/-- Claim C10: Close only sets the termination flag, so it is idempotent
and touches neither the table, the clock nor the root; and once the flag
is observed at the check that follows the completion of the current watch
call, the background loop returns at once — the in-flight response and
every later one are not applied, so no merge happens after the flag is
seen and at most the one in-flight call runs to completion. -/
theorem C10_close_terminates (c : CState) (ls : LoopState) (it : Iteration)
    (rest : List Iteration) (hexit : it.exitSeen = true) :
    Close (Close c) = Close c ∧
    (Close c).cache = c.cache ∧
    (Close c).clock = c.clock ∧
    (Close c).pfx = c.pfx ∧
    (Close c).exit = true ∧
    bgRun ls (it :: rest) = ls := by
  refine ⟨rfl, rfl, rfl, rfl, rfl, ?_⟩
  simp [bgRun, hexit]

/-- Claim C10 witness: the theorem applied to the fresh mirror and a
one-iteration schedule whose check observes the flag. -/
theorem C10_witness :
    bgRun { cs := NewConsulKVCache "foo", idx := 0 }
        [{ exitSeen := true, resp := .transportErr, repop := .transportErr }]
      = { cs := NewConsulKVCache "foo", idx := 0 } := by
  have h := C10_close_terminates (NewConsulKVCache "foo")
    { cs := NewConsulKVCache "foo", idx := 0 }
    { exitSeen := true, resp := .transportErr, repop := .transportErr } [] rfl
  exact h.2.2.2.2.2

end ConsulKV
